import Mathlib

/-!
Verification development for the `degenerexp` regex-to-automaton compiler
(`src/fsm.hpp`, `src/thompson.hpp`, `src/parser.hpp`).

Shallow embedding conventions:
* `fsm::state_t` indices are `Nat` (states are always non-negative in the code);
  `fsm::input_t` is `Int` with `epsilon = -1` and `0` the "no edge" cell value.
* An NFA transition table (`std::vector<std::vector<input_t>>`) is a
  `List (List Int)`; row `i`, column `j` holds the label of the edge `i -> j`.
* C++ exceptions (`std::invalid_argument`, `std::runtime_error`) are modelled
  by `Option`/`Except`: `none`/`.error` means the C++ call throws.
* `assert` violations and the undefined behaviour of popping an empty
  `std::stack` are modelled by dedicated error values (the program aborts or
  is undefined there; it never produces a result).
* The unbounded `while` loops of the subset construction and the epsilon
  closure are written with explicit fuel; `none` from the subset construction
  means the loop has not finished within the given fuel.
-/

namespace Degen

/-- Model of `fsm::epsilon`, the reserved epsilon marker (-1). -/
def epsilon : Int := -1

/-- Model of `fsm::result`. -/
inductive Result where
  | accept
  | reject
deriving DecidableEq

/-- An NFA transition table, `nfa::transition_table_`. -/
abbrev Table := List (List Int)

/-- Cell `T[i][j]` of a transition table (0 = no edge, as in the C++ where a
freshly constructed table is zero-filled). -/
def cell (t : Table) (i j : Nat) : Int := (t.getD i []).getD j 0

/-- Model of `nfa::is_legal_state`: `0 <= s < size` (states are `Nat` here, so only the
upper bound remains). -/
def isLegal (t : Table) (s : Nat) : Bool := s < t.length

/-- A well-formed table as produced by the `nfa` constructor: at least one
state and a square table. -/
def WfTable (t : Table) : Prop :=
  1 ≤ t.length ∧ ∀ row ∈ t, row.length = t.length

/-- A row of `n` zero cells. -/
def zeroRow (n : Nat) : List Int := List.replicate n 0

/-- The `nfa(size)` constructor: a `size × size` zero-filled table; throws
(`none`) when `size < 1`. -/
def nfaNew (size : Nat) : Option Table :=
  if size < 1 then none
  else some (List.replicate size (zeroRow size))

/-- Model of `nfa::add_transition`: overwrite `T[from][to]` after the legality check. -/
def addTransition (t : Table) (src dst : Nat) (input : Int) : Option Table :=
  if isLegal t src ∧ isLegal t dst then
    some (t.set src (((t.getD src []).set dst input)))
  else none

/-- Model of `nfa::append_empty_states(n)`: grow every row by `n` zero columns and add
`n` zero rows at the end; throws (`none`) when `n < 1`. -/
def appendEmptyStates (t : Table) (n : Nat) : Option Table :=
  if n < 1 then none
  else some ((t.map (fun row => row ++ zeroRow n))
      ++ List.replicate n (zeroRow (t.length + n)))

/-- Model of `nfa::prepend_empty_states(n)`: shift every row right by `n` (zero-filling
the first `n` columns) and shift the rows down by `n` (zero-filling the first
`n` rows); throws (`none`) when `n < 1`. -/
def prependEmptyStates (t : Table) (n : Nat) : Option Table :=
  if n < 1 then none
  else some (List.replicate n (zeroRow (t.length + n))
      ++ t.map (fun row => zeroRow n ++ row))

/-- Model of `std::copy(src.begin(), src.end(), row.begin() + off)`: overwrite
`src.length` cells of `row` starting at column `off`. -/
def overwriteAt (row : List Int) (off : Nat) (src : List Int) : List Int :=
  row.take off ++ src ++ row.drop (off + src.length)

/-- Model of `nfa::prepend(other)`: the `this == &other` aliasing guard returns the
receiver unchanged; otherwise prepend `other.size()` empty states and copy
`other`'s rows over the fresh low rows. -/
def prependOp (self other : Table) (sameObject : Bool) : Option Table :=
  if sameObject then some self
  else
    (prependEmptyStates self other.length).map (fun t =>
      (List.range t.length).map (fun i =>
        if i < other.length then overwriteAt (t.getD i []) 0 (other.getD i [])
        else t.getD i []))

/-- Model of `nfa::append(other)`: aliasing guard, then append `other.size()` empty
states and copy `other`'s rows into the fresh high rows at column offset
`orig_size`. -/
def appendOp (self other : Table) (sameObject : Bool) : Option Table :=
  if sameObject then some self
  else
    (appendEmptyStates self other.length).map (fun t =>
      (List.range t.length).map (fun i =>
        if self.length ≤ i then
          overwriteAt (t.getD i []) self.length (other.getD (i - self.length) [])
        else t.getD i []))

/-- Model of `nfa::chain(other)`: aliasing guard, then append `other.size() - 1` empty
states (throws when `other.size() - 1 < 1`) and copy `other`'s rows into rows
`orig_size - 1 ..` at column offset `orig_size - 1`, merging this NFA's final
state with `other`'s start state. -/
def chainOp (self other : Table) (sameObject : Bool) : Option Table :=
  if sameObject then some self
  else
    (appendEmptyStates self (other.length - 1)).map (fun t =>
      (List.range t.length).map (fun i =>
        if self.length - 1 ≤ i then
          overwriteAt (t.getD i []) (self.length - 1)
            (other.getD (i - (self.length - 1)) [])
        else t.getD i []))

/-- Insert into a sorted `Nat` list without duplicates (the canonical form of
a `std::set<state_t>`). -/
def insertSorted (x : Nat) : List Nat → List Nat
  | [] => [x]
  | y :: ys =>
    if x < y then x :: y :: ys
    else if x = y then y :: ys
    else y :: insertSorted x ys

/-- One seed's worklist run of `nfa::epsilon_closure`: pop `t`, scan all
states `u`, and add `u` when `u == t` or `T[t][u] == epsilon` and `u` is not
yet in the closure.  Fuel bounds the pops; `size + 1` pops always suffice
because every push inserts a fresh state into the closure. -/
def closLoop (t : Table) : Nat → List Nat → List Nat → List Nat
  | 0, _, acc => acc
  | _ + 1, [], acc => acc
  | fuel + 1, s :: rest, acc =>
    let step := (List.range t.length).foldl
      (fun (p : List Nat × List Nat) u =>
        if (u = s ∨ cell t s u = epsilon) ∧ u ∉ p.2 then
          (u :: p.1, insertSorted u p.2)
        else p)
      (rest, acc)
    closLoop t fuel step.1 step.2

/-- Model of `nfa::epsilon_closure(start_states)`: per-seed legality check (throwing
`none` on an illegal seed), then the shared worklist accumulation. -/
def epsClosure (t : Table) (seeds : List Nat) : Option (List Nat) :=
  seeds.foldlM
    (fun acc s =>
      if isLegal t s then some (closLoop t (t.length + 1) [s] acc) else none)
    []

/-- Model of `nfa::reachable_states(start_states, input)`: states `s ≠ start` with
`T[start][s] == input`, accumulated over all seeds into a set; throws
(`none`) on an illegal seed. -/
def reachableStates (t : Table) (seeds : List Nat) (input : Int) :
    Option (List Nat) :=
  seeds.foldlM
    (fun acc start =>
      if isLegal t start then
        some ((List.range t.length).foldl
          (fun acc2 s =>
            if s = start then acc2
            else if cell t start s = input then insertSorted s acc2 else acc2)
          acc)
      else none)
    []

/-- Model of `thompson::build_literal`: a 2-state NFA with the single edge `0 -> 1`
labeled `input`. -/
def buildLiteral (input : Int) : Option Table :=
  (nfaNew 2).bind (fun t => addTransition t 0 1 input)

/-- Model of `thompson::build_concatenation`: copy `a`, then `tmp.chain(b)`; the copy
is a distinct object, so the aliasing guard never fires. -/
def buildConcatenation (a b : Table) : Option Table :=
  chainOp a b false

/-- Model of `thompson::build_alternation`: copy `a`, append `b`, wrap with one new
start and one new final state and the four epsilon edges. -/
def buildAlternation (a b : Table) : Option Table := do
  let alt ← appendOp a b false
  let alt ← prependEmptyStates alt 1
  let alt ← appendEmptyStates alt 1
  let alt ← addTransition alt 0 1 epsilon
  let alt ← addTransition alt 0 (1 + a.length) epsilon
  let alt ← addTransition alt a.length (alt.length - 1) epsilon
  addTransition alt (a.length + b.length) (alt.length - 1) epsilon

/-- Model of `thompson::build_kleene_star`: wrap with one new start and final state and
the enter/skip/repeat/exit epsilon edges. -/
def buildKleeneStar (t : Table) : Option Table := do
  let star ← prependEmptyStates t 1
  let star ← appendEmptyStates star 1
  let star ← addTransition star 0 1 epsilon
  let star ← addTransition star 0 (star.length - 1) epsilon
  let star ← addTransition star (star.length - 2) 1 epsilon
  addTransition star (star.length - 2) (star.length - 1) epsilon

/-- Model of `thompson::build_question_mark` = `build_alternation(nfa, literal(epsilon))`. -/
def buildQuestionMark (t : Table) : Option Table :=
  (buildLiteral epsilon).bind (fun l => buildAlternation t l)

/-- Model of `thompson::build_plus_sign` = `build_concatenation(nfa, kleene_star(nfa))`. -/
def buildPlusSign (t : Table) : Option Table :=
  (buildKleeneStar t).bind (fun s => buildConcatenation t s)

/-! ## DFA: subset construction and simulation (`struct dfa`) -/

/-- A DFA-state: a set of NFA states, canonically a sorted duplicate-free
list (`std::set<state_t>`). -/
abbrev Key := List Nat

/-- The per-key transition map `std::map<input_t, std::set<state_t>>` as an
association list (iteration order of the inner map is never observed). -/
abbrev Trans := List (Int × Key)

/-- Model of `dfa::transition_table_`, an association list from DFA-state to its
transition map (only `begin()`, i.e. the least key, of the outer map is ever
observed besides lookups, so insertion order is immaterial). -/
abbrev DTable := List (Key × Trans)

/-- Model of `std::map::find` on the inner transition map. -/
def lookupA (l : Trans) (c : Int) : Option Key :=
  match l with
  | [] => none
  | e :: rest => if e.1 = c then some e.2 else lookupA rest c

/-- Model of `std::map::find` on the outer table, returning the entry (the model of a
valid `std::map` iterator). -/
def tableFind (t : DTable) (k : Key) : Option (Key × Trans) :=
  match t with
  | [] => none
  | e :: rest => if e.1 = k then some e else tableFind rest k

/-- Update-or-add on the inner transition map (`transitions[input] = ...`). -/
def updateA (l : Trans) (c : Int) (v : Key) : Trans :=
  match l with
  | [] => [(c, v)]
  | e :: rest => if e.1 = c then (c, v) :: rest else e :: updateA rest c v

/-- Model of `transition_table_[start_states][input] = reachable`: update-or-add the
outer entry with the inner assignment. -/
def tableInsert (t : DTable) (k : Key) (c : Int) (r : Key) : DTable :=
  match t with
  | [] => [(k, [(c, r)])]
  | e :: rest =>
    if e.1 = k then (e.1, updateA e.2 c r) :: rest else e :: tableInsert rest k c r

/-- Model of `std::set<state_t>`'s `operator<`: lexicographic comparison of elements. -/
def keyLt : Key → Key → Bool
  | [], [] => false
  | [], _ :: _ => true
  | _ :: _, [] => false
  | a :: as_, b :: bs => if a < b then true else if b < a then false else keyLt as_ bs

/-- The least key of the outer map: what `transition_table_.begin()` points
to in the sorted `std::map`. -/
def minKey (t : DTable) : Option Key :=
  t.foldl
    (fun m e =>
      match m with
      | none => some e.1
      | some k => if keyLt e.1 k then some e.1 else some k)
    none

/-- The result of `dfa::dfa`: the table, the start entry's key (`start_`,
`none` when the iterator stayed `end()`), and `final_state_`. -/
structure DFA where
  table : DTable
  start : Option Key
  final : Nat
deriving DecidableEq

/-- The inner `for(const auto input : input_lang)` of the subset construction:
for each alphabet symbol, the `reachable_states`/`epsilon_closure` pair that
gets recorded and pushed, kept in alphabet order; `none` when a state check
throws. -/
def stepInputs (n : Table) (lang : List Int) (key : Key) :
    Option (List (Int × Key)) :=
  match lang with
  | [] => some []
  | c :: rest =>
    match reachableStates n key c with
    | none => none
    | some r =>
      if r = [] then stepInputs n rest key
      else
        match epsClosure n r with
        | none => none
        | some cl =>
          match stepInputs n rest key with
          | none => none
          | some tail => some ((c, cl) :: tail)

/-- The successive `transitions[input] = reachable` insertions for one popped
DFA-state, tracking `start_`: after every insertion, if `start_` is still
`end()` it becomes `begin()` of the (now non-empty) map, i.e. the least key. -/
def insertFold (tbl : DTable) (start : Option Key) (key : Key)
    (succs : List (Int × Key)) : DTable × Option Key :=
  succs.foldl
    (fun (p : DTable × Option Key) cr =>
      let t2 := tableInsert p.1 key cr.1 cr.2
      (t2, match p.2 with
           | none => minKey t2
           | some s => some s))
    (tbl, start)

/-- The worklist loop of `dfa::dfa`.  The C++ `while(!to_process.empty())`
has no fuel; `none` means the loop has not finished within `fuel` pops (or an
`assert`/exception fired).  When the worklist empties, the constructor checks
`assert(transition_table_.find({final_state_}) == transition_table_.end())`
(modelled as `none` when violated) and inserts the terminal entry
`{final_state_} -> {}`. -/
def dfaLoop (n : Table) (lang : List Int) :
    Nat → List Key → DTable → Option Key → Option DFA
  | 0, _, _, _ => none
  | _ + 1, [], tbl, st =>
    if (tableFind tbl [n.length - 1]).isSome then none
    else some ⟨tbl ++ [([n.length - 1], [])], st, n.length - 1⟩
  | fuel + 1, key :: rest, tbl, st =>
    match stepInputs n lang key with
    | none => none
    | some succs =>
      let p := insertFold tbl st key succs
      dfaLoop n lang fuel ((succs.map Prod.snd).reverse ++ rest) p.1 p.2

/-- Model of `dfa::dfa(nfa, input_lang)`: seed the worklist with the epsilon closure
of the NFA start state (state 0) and run the loop. -/
def dfaBuild (n : Table) (lang : List Int) (fuel : Nat) : Option DFA :=
  match epsClosure n [0] with
  | none => none
  | some c0 => dfaLoop n lang fuel [c0] [] none

/-- The walk of `dfa::simulate`: `state` is an iterator, `none` = `end()`.
Each input symbol rejects when the iterator is `end()` or the entry has no
transition for the symbol; after the input, accept iff the iterator is live
and its key contains `final_state_`. -/
def simRun (t : DTable) (fin : Nat) : Option (Key × Trans) → List Int → Result
  | none, [] => .reject
  | some e, [] => if fin ∈ e.1 then .accept else .reject
  | none, _ :: _ => .reject
  | some e, c :: rest =>
    match lookupA e.2 c with
    | none => .reject
    | some nxt => simRun t fin (tableFind t nxt) rest

/-- Model of `dfa::simulate(input)`: start the walk at `start_` (looking the stored
key up in the final table, which is what the live iterator denotes). -/
def simulate (d : DFA) (input : List Int) : Result :=
  simRun d.table d.final (d.start.bind (fun k => tableFind d.table k)) input

/-- The iterator moves of the simulation walk as a fold, with early rejection
folded into `none`; `simRun` is its early-return form. -/
def walkFrom (t : DTable) (st : Option (Key × Trans)) (w : List Int) :
    Option (Key × Trans) :=
  w.foldl
    (fun st c =>
      match st with
      | none => none
      | some e =>
        match lookupA e.2 c with
        | none => none
        | some nxt => tableFind t nxt)
    st

/-- The iterator reached after consuming a prefix of the input; used to state
where a walk is when a symbol has no transition. -/
def simWalk (d : DFA) (w : List Int) : Option (Key × Trans) :=
  walkFrom d.table (d.start.bind (fun k => tableFind d.table k)) w

/-! ## Shunting-yard parser (`parser.hpp`) -/

/-- Model of `parser::op` (only `alternation` and `left_paren` are ever pushed). -/
inductive Op where
  | alternation
  | question_mark
  | kleene_star
  | plus_sign
  | left_paren
  | right_paren
deriving DecidableEq

/-- Parse failures.  `missingOperand` models the `std::runtime_error`s thrown
by the `build_*` helpers; `invalidArg` models `std::invalid_argument`
escaping from the `fsm` layer; `popEmptyUB` marks the undefined behaviour of
`op_stack_.pop()` on an empty stack (unmatched right paren); `assertFail`
marks a violated `assert` (the program aborts there in a debug build). -/
inductive PErr where
  | missingOperand
  | invalidArg
  | popEmptyUB
  | assertFail
deriving DecidableEq

/-- The parser's scratch state: `op_stack_` (head = top), `output_`
(head = most recent fragment, i.e. `output_.back()`), `nesting_level_`, and
`is_prev_separator_`. -/
structure PState where
  ops : List Op
  output : List Table
  nesting : Int
  sep : Bool
deriving DecidableEq

/-- The fresh parser state. -/
def initPState : PState := ⟨[], [], 0, false⟩

/-- Model of `build_alternation` on the output stack: throws `missingOperand` when
fewer than two fragments remain, else replaces the top two (first = deeper,
second = top) by their alternation. -/
def altStack (out : List Table) : Except PErr (List Table) :=
  match out with
  | second :: first :: rest =>
    match buildAlternation first second with
    | none => .error .invalidArg
    | some alt => .ok (alt :: rest)
  | _ => .error .missingOperand

/-- The unary-operator helpers `build_kleene_star` / `build_question_mark` /
`build_plus_sign` on the output stack: throw `missingOperand` when the stack
is empty, else rewrite the top fragment. -/
def unaryStack (f : Table → Option Table) (out : List Table) :
    Except PErr (List Table) :=
  match out with
  | [] => .error .missingOperand
  | top :: rest =>
    match f top with
    | none => .error .invalidArg
    | some t => .ok (t :: rest)

/-- The body of the `while(output_.size() > 1)` loop of `concatenate_output`:
repeatedly replace the two most recent fragments by
`build_concatenation(output[n-2], output[n-1])` until one remains. -/
def concatFold (top : Table) : List Table → Except PErr Table
  | [] => .ok top
  | next :: rest =>
    match buildConcatenation next top with
    | none => .error .invalidArg
    | some t => concatFold t rest

/-- Model of `concatenate_output`: fold the whole output stack into one fragment. -/
def concatStack : List Table → Except PErr (List Table)
  | [] => .ok []
  | top :: rest =>
    match concatFold top rest with
    | .error e => .error e
    | .ok t => .ok [t]

/-- The `while(!op_stack_.empty() && op_stack_.top() != op::left_paren)` fold
run at a right paren: pop operators (each must be an alternation by the
`assert`) and apply `build_alternation`. -/
def foldToParen : List Op → List Table → Except PErr (List Op × List Table)
  | [], out => .ok ([], out)
  | o :: rest, out =>
    if o = Op.left_paren then .ok (o :: rest, out)
    else if o = Op.alternation then
      match altStack out with
      | .error e => .error e
      | .ok out2 => foldToParen rest out2
    else .error .assertFail

/-- One iteration of the scan loop of `shunting_yard_nfa_parser::parse` for
character `c`. -/
def parseStep (st : PState) (c : Char) : Except PErr PState :=
  if c = '(' then
    .ok { st with ops := Op.left_paren :: st.ops, sep := true,
                  nesting := st.nesting + 1 }
  else if c = ')' then
    match foldToParen st.ops st.output with
    | .error e => .error e
    | .ok (ops2, out2) =>
      match ops2 with
      | [] => .error .popEmptyUB
      | _ :: rest =>
        .ok { ops := rest, output := out2, nesting := st.nesting - 1,
              sep := true }
  else if c = '*' then
    match unaryStack buildKleeneStar st.output with
    | .error e => .error e
    | .ok out2 =>
      match concatStack out2 with
      | .error e => .error e
      | .ok out3 => .ok { st with output := out3, sep := false }
  else if c = '?' then
    match unaryStack buildQuestionMark st.output with
    | .error e => .error e
    | .ok out2 =>
      match concatStack out2 with
      | .error e => .error e
      | .ok out3 => .ok { st with output := out3, sep := false }
  else if c = '+' then
    match unaryStack buildPlusSign st.output with
    | .error e => .error e
    | .ok out2 =>
      match concatStack out2 with
      | .error e => .error e
      | .ok out3 => .ok { st with output := out3, sep := false }
  else if c = '|' then
    .ok { st with ops := Op.alternation :: st.ops, sep := true }
  else
    match buildLiteral (Int.ofNat c.toNat) with
    | none => .error .invalidArg
    | some lit =>
      if st.sep then .ok { st with output := lit :: st.output, sep := false }
      else
        match st.output with
        | [] => .ok { st with output := [lit] }
        | top :: rest =>
          match buildConcatenation top lit with
          | none => .error .invalidArg
          | some t => .ok { st with output := t :: rest }

/-- The character scan of `parse` over the whole pattern. -/
def scan (regex : List Char) : Except PErr PState :=
  regex.foldlM parseStep initPState

/-- The end-of-input operator fold: every remaining operator must be an
alternation (`assert(op == op::alternation)`) and is applied to the output
stack. -/
def finishOps : List Op → List Table → Except PErr (List Table)
  | [], out => .ok out
  | o :: rest, out =>
    if o = Op.alternation then
      match altStack out with
      | .error e => .error e
      | .ok out2 => finishOps rest out2
    else .error .assertFail

/-- Model of `shunting_yard_nfa_parser::parse` on a fresh parser (the memoisation
branch at the top is skipped because `output_` starts empty): scan, fold the
remaining operators, then `assert(output_.size() == 1)` and return the sole
fragment. -/
def parse (regex : List Char) : Except PErr Table :=
  match scan regex with
  | .error e => .error e
  | .ok st =>
    match finishOps st.ops st.output with
    | .error e => .error e
    | .ok out =>
      match out with
      | [t] => .ok t
      | _ => .error .assertFail

/-! ## Helper lemmas -/

theorem walkFrom_none (t : DTable) (w : List Int) : walkFrom t none w = none := by
  induction w with
  | nil => rfl
  | cons c rest ih => simpa [walkFrom, List.foldl_cons] using ih

theorem walkFrom_cons (t : DTable) (st : Option (Key × Trans)) (c : Int)
    (w : List Int) :
    walkFrom t st (c :: w) =
      walkFrom t
        (match st with
         | none => none
         | some e =>
           match lookupA e.2 c with
           | none => none
           | some nxt => tableFind t nxt) w := by
  simp [walkFrom, List.foldl_cons]

theorem walkFrom_append (t : DTable) (st : Option (Key × Trans))
    (w1 w2 : List Int) :
    walkFrom t st (w1 ++ w2) = walkFrom t (walkFrom t st w1) w2 := by
  simp [walkFrom, List.foldl_append]

/-- The function `simRun` computes the same answer as the fold-form walk followed by the
final-state check. -/
theorem simRun_eq_walkFrom (t : DTable) (fin : Nat) (w : List Int)
    (st : Option (Key × Trans)) :
    simRun t fin st w =
      match walkFrom t st w with
      | none => Result.reject
      | some e => if fin ∈ e.1 then Result.accept else Result.reject := by
  induction w generalizing st with
  | nil => cases st <;> rfl
  | cons c rest ih =>
    cases st with
    | none => simp [simRun, walkFrom_cons, walkFrom_none]
    | some e =>
      cases hl : lookupA e.2 c with
      | none => simp [simRun, hl, walkFrom_cons, walkFrom_none]
      | some nxt => simp [simRun, hl, walkFrom_cons, ih]

theorem mem_insertSorted (x y : Nat) (l : List Nat) :
    x ∈ insertSorted y l ↔ x = y ∨ x ∈ l := by
  induction l with
  | nil => simp [insertSorted]
  | cons z zs ih =>
    by_cases h1 : y < z
    · simp [insertSorted, h1]
    · by_cases h2 : y = z
      · subst h2
        have hi : insertSorted y (y :: zs) = y :: zs := by
          simp [insertSorted, h1]
        rw [hi, List.mem_cons]
        tauto
      · simp only [insertSorted, if_neg h1, if_neg h2, List.mem_cons, ih]
        tauto

theorem mem_reachFold (t : Table) (start : Nat) (input : Int) (l : List Nat)
    (acc : List Nat) (x : Nat) :
    (x ∈ l.foldl (fun acc2 s =>
        if s = start then acc2
        else if cell t start s = input then insertSorted s acc2 else acc2) acc) ↔
      x ∈ acc ∨ (x ∈ l ∧ x ≠ start ∧ cell t start x = input) := by
  induction l generalizing acc with
  | nil => simp
  | cons s ss ih =>
    simp only [List.foldl_cons, List.mem_cons]
    by_cases h1 : s = start
    · rw [if_pos h1, ih]
      subst h1
      constructor
      · rintro (h | h)
        · exact Or.inl h
        · exact Or.inr ⟨Or.inr h.1, h.2⟩
      · rintro (h | ⟨hs | hss, hne, hc⟩)
        · exact Or.inl h
        · exact absurd hs hne
        · exact Or.inr ⟨hss, hne, hc⟩
    · rw [if_neg h1]
      by_cases h2 : cell t start s = input
      · rw [if_pos h2, ih]
        simp only [mem_insertSorted]
        constructor
        · rintro ((hx | h) | h)
          · subst hx
            exact Or.inr ⟨Or.inl rfl, h1, h2⟩
          · exact Or.inl h
          · exact Or.inr ⟨Or.inr h.1, h.2⟩
        · rintro (h | ⟨hs | hss, hne, hc⟩)
          · exact Or.inl (Or.inr h)
          · exact Or.inl (Or.inl hs)
          · exact Or.inr ⟨hss, hne, hc⟩
      · rw [if_neg h2, ih]
        constructor
        · rintro (h | h)
          · exact Or.inl h
          · exact Or.inr ⟨Or.inr h.1, h.2⟩
        · rintro (h | ⟨hs | hss, hne, hc⟩)
          · exact Or.inl h
          · subst hs
            exact absurd hc h2
          · exact Or.inr ⟨hss, hne, hc⟩

theorem reachableStates_aux (t : Table) (input : Int) (seeds : List Nat) :
    ∀ acc, (∀ s ∈ seeds, isLegal t s = true) →
      ∃ r, (seeds.foldlM
          (fun acc start =>
            if isLegal t start then
              some ((List.range t.length).foldl
                (fun acc2 s =>
                  if s = start then acc2
                  else if cell t start s = input then insertSorted s acc2
                  else acc2)
                acc)
            else none)
          acc) = some r ∧
        ∀ x, x ∈ r ↔
          x ∈ acc ∨ ∃ sd ∈ seeds, x < t.length ∧ x ≠ sd ∧ cell t sd x = input := by
  induction seeds with
  | nil =>
    intro acc _
    exact ⟨acc, rfl, by simp⟩
  | cons s ss ih =>
    intro acc hleg
    have hs : isLegal t s = true := hleg s (by simp)
    obtain ⟨r, hr, hmem⟩ := ih
      ((List.range t.length).foldl
        (fun acc2 s2 =>
          if s2 = s then acc2
          else if cell t s s2 = input then insertSorted s2 acc2 else acc2)
        acc)
      (fun s2 hs2 => hleg s2 (by simp [hs2]))
    refine ⟨r, ?_, ?_⟩
    · simpa [List.foldlM_cons, hs] using hr
    · intro x
      rw [hmem x, mem_reachFold]
      simp only [List.mem_range, List.mem_cons]
      constructor
      · rintro ((h | ⟨hlt, hne, hc⟩) | ⟨sd, hsd, h2⟩)
        · exact Or.inl h
        · exact Or.inr ⟨s, Or.inl rfl, hlt, hne, hc⟩
        · exact Or.inr ⟨sd, Or.inr hsd, h2⟩
      · rintro (h | ⟨sd, hsd | hsd, h2⟩)
        · exact Or.inl (Or.inl h)
        · subst hsd
          exact Or.inl (Or.inr ⟨h2.1, h2.2⟩)
        · exact Or.inr ⟨sd, hsd, h2⟩

/-! ## C2: reachable_states -/

/-- C2 (amended): for legal seed states, `reachable_states(seeds, input)`
returns exactly the states `x < size` such that some seed `sd` distinct from
`x` has `T[sd][x] == input` — the `if(s == start) continue` skips an edge
from a seed to itself, so a self-loop on the symbol never puts the seed in
the result. -/
theorem reachableStates_spec (t : Table) (seeds : List Nat) (input : Int)
    (hleg : ∀ s ∈ seeds, isLegal t s = true) :
    ∃ r, reachableStates t seeds input = some r ∧
      ∀ x, x ∈ r ↔
        ∃ sd ∈ seeds, x < t.length ∧ x ≠ sd ∧ cell t sd x = input := by
  obtain ⟨r, hr, hmem⟩ := reachableStates_aux t input seeds [] hleg
  refine ⟨r, hr, fun x => ?_⟩
  rw [hmem x]
  simp

/-- Witness for C2: on the 2-state NFA with `T[0][1] = T[1][0] = 5`, both
states are one `5`-edge away from the other seed. -/
theorem reachableStates_witness :
    ∃ r, reachableStates [[0, 5], [5, 0]] [0, 1] 5 = some r ∧
      ∀ x, x ∈ r ↔
        ∃ sd ∈ [0, 1], x < 2 ∧ x ≠ sd ∧ cell [[0, 5], [5, 0]] sd x = 5 :=
  reachableStates_spec [[0, 5], [5, 0]] [0, 1] 5 (by decide)

/-- Counterexample for C2 as stated: the single-state NFA with the self-loop
`T[0][0] = 5` has, per the claim, state 0 reachable from seed 0 by one edge
labeled 5, yet `reachable_states({0}, 5)` returns the empty set because the
loop skips `s == start`. -/
theorem reachable_self_loop_cex :
    cell [[(5 : Int)]] 0 0 = 5 ∧
      ¬ ∀ r, reachableStates [[(5 : Int)]] [0] 5 = some r → 0 ∈ r := by
  refine ⟨rfl, fun h => ?_⟩
  have := h [] (by rfl)
  simp at this

/-! ## C5: the DFA of a literal -/

theorem buildLiteral_eq (x : Int) : buildLiteral x = some [[0, x], [0, 0]] := by
  simp [buildLiteral, nfaNew, addTransition, isLegal, zeroRow, List.replicate,
    Option.bind]

theorem reach_lit0 (x c : Int) :
    reachableStates [[0, x], [0, 0]] [0] c =
      some (if x = c then [1] else []) := by
  have hr : List.range ([[(0 : Int), x], [0, 0]].length) = [0, 1] := rfl
  have c01 : cell [[0, x], [0, 0]] 0 1 = x := rfl
  simp only [reachableStates, List.foldlM_cons, List.foldlM_nil, hr,
    List.foldl_cons, List.foldl_nil, c01]
  norm_num [isLegal, insertSorted]

theorem reach_lit1 (x c : Int) (hc : c ≠ 0) :
    reachableStates [[0, x], [0, 0]] [1] c = some [] := by
  have hr : List.range ([[(0 : Int), x], [0, 0]].length) = [0, 1] := rfl
  have c10 : cell [[0, x], [0, 0]] 1 0 = 0 := rfl
  have hzc : ¬((0 : Int) = c) := fun h => hc h.symm
  simp only [reachableStates, List.foldlM_cons, List.foldlM_nil, hr,
    List.foldl_cons, List.foldl_nil, c10]
  norm_num [isLegal, hzc]

theorem clos_lit1 (x : Int) : epsClosure [[0, x], [0, 0]] [1] = some [1] := by
  rfl

theorem clos_lit0 (x : Int) (hx : x ≠ epsilon) :
    epsClosure [[0, x], [0, 0]] [0] = some [0] := by
  have hneg : ¬(x = -1) := by simpa [epsilon] using hx
  have hr : List.range ([[(0 : Int), x], [0, 0]].length) = [0, 1] := rfl
  have c01 : cell [[0, x], [0, 0]] 0 1 = x := rfl
  have hr2 : List.range 2 = [0, 1] := rfl
  simp only [epsClosure, List.foldlM_cons, List.foldlM_nil, isLegal]
  norm_num [closLoop, hr, hr2, c01, hneg, hx, epsilon, insertSorted]

/-- Value of `stepInputs` of the literal NFA from the start DFA-state, for alphabet
symbols other than the literal. -/
theorem stepInputs_lit0_not_mem (x : Int) (lang : List Int) (hx : x ∉ lang) :
    stepInputs [[0, x], [0, 0]] lang [0] = some [] := by
  induction lang with
  | nil => rfl
  | cons c rest ih =>
    have hne : ¬(x = c) := fun h => hx (by simp [h])
    have hrest : x ∉ rest := fun h => hx (by simp [h])
    simp only [stepInputs, reach_lit0, if_neg hne, reduceIte, ih hrest]

/-- Value of `stepInputs` of the literal NFA from the start DFA-state: exactly one
successor, on the literal symbol itself. -/
theorem stepInputs_lit0 (x : Int) (lang : List Int) (hx : x ∈ lang)
    (hnd : lang.Nodup) :
    stepInputs [[0, x], [0, 0]] lang [0] = some [(x, [1])] := by
  induction lang with
  | nil => simp at hx
  | cons c rest ih =>
    rcases List.mem_cons.1 hx with hcx | hmem
    · have hrest : x ∉ rest := by
        rw [hcx]
        exact (List.nodup_cons.1 hnd).1
      rw [← hcx]
      simp only [stepInputs, reach_lit0, stepInputs_lit0_not_mem x rest hrest]
      simp [clos_lit1]
    · have hne : ¬(x = c) := by
        rintro rfl
        exact (List.nodup_cons.1 hnd).1 hmem
      simp only [stepInputs, reach_lit0, if_neg hne, reduceIte,
        ih hmem (List.nodup_cons.1 hnd).2]

/-- Value of `stepInputs` of the literal NFA from the accepting DFA-state: no
successors when the alphabet avoids the no-edge marker 0. -/
theorem stepInputs_lit1 (x : Int) (lang : List Int)
    (h0 : ∀ c ∈ lang, c ≠ 0) :
    stepInputs [[0, x], [0, 0]] lang [1] = some [] := by
  induction lang with
  | nil => rfl
  | cons c rest ih =>
    have hc : c ≠ 0 := h0 c (by simp)
    simp only [stepInputs, reach_lit1 x c hc, reduceIte,
      ih (fun c2 h2 => h0 c2 (by simp [h2]))]

/-- C5: over any alphabet of genuine symbols (no epsilon marker and no
no-edge marker 0, as a `std::set` duplicate-free) containing `x`, the DFA of
`literal(x)` is built (three worklist pops suffice) and accepts exactly the
one-symbol input `[x]`. -/
theorem literal_dfa_accepts_exactly (x : Int) (lang : List Int)
    (hx : x ∈ lang) (hnd : lang.Nodup)
    (hsym : ∀ c ∈ lang, c ≠ 0 ∧ c ≠ epsilon) :
    ∃ lt d, buildLiteral x = some lt ∧ dfaBuild lt lang 3 = some d ∧
      ∀ w, simulate d w = Result.accept ↔ w = [x] := by
  have hx_eps : x ≠ epsilon := (hsym x hx).2
  have hx0 : x ≠ 0 := (hsym x hx).1
  refine ⟨[[0, x], [0, 0]], ⟨[([0], [(x, [1])]), ([1], [])], some [0], 1⟩,
    buildLiteral_eq x, ?_, ?_⟩
  · have e1 : dfaBuild [[0, x], [0, 0]] lang 3 =
        dfaLoop [[0, x], [0, 0]] lang 3 [[0]] [] none := by
      unfold dfaBuild
      rw [clos_lit0 x hx_eps]
    have e2 : dfaLoop [[0, x], [0, 0]] lang 3 [[0]] [] none =
        dfaLoop [[0, x], [0, 0]] lang 2 [[1]] [([0], [(x, [1])])] (some [0]) := by
      unfold dfaLoop
      rw [stepInputs_lit0 x lang hx hnd]
      rfl
    have e3 : dfaLoop [[0, x], [0, 0]] lang 2 [[1]] [([0], [(x, [1])])]
          (some [0]) =
        dfaLoop [[0, x], [0, 0]] lang 1 [] [([0], [(x, [1])])] (some [0]) := by
      unfold dfaLoop
      rw [stepInputs_lit1 x lang (fun c hc => (hsym c hc).1)]
      rfl
    rw [e1, e2, e3]
    rfl
  · intro w
    match w with
    | [] =>
      have hs : simulate ⟨[([0], [(x, [1])]), ([1], [])], some [0], 1⟩ [] =
          Result.reject := rfl
      rw [hs]
      simp
    | c :: rest =>
      by_cases hc : x = c
      · rw [← hc]
        match rest with
        | [] =>
          have hs : simulate ⟨[([0], [(x, [1])]), ([1], [])], some [0], 1⟩
              [x] = Result.accept := by
            simp [simulate, simRun, tableFind, lookupA]
          rw [hs]
          simp
        | c2 :: rest2 =>
          have hs : simulate ⟨[([0], [(x, [1])]), ([1], [])], some [0], 1⟩
              (x :: c2 :: rest2) = Result.reject := by
            simp [simulate, simRun, tableFind, lookupA]
          rw [hs]
          simp
      · have hl : lookupA [(x, [1])] c = none := by
          simp [lookupA, hc]
        have hs : simulate ⟨[([0], [(x, [1])]), ([1], [])], some [0], 1⟩
            (c :: rest) = Result.reject := by
          simp [simulate, simRun, tableFind, hl]
        rw [hs]
        constructor
        · intro h
          exact absurd h (by simp)
        · intro h
          injection h with h1 h2
          exact absurd h1.symm hc

/-- Witness for C5 at `x = 'a'` over the alphabet `{'a', 'b'}`. -/
theorem literal_dfa_witness :
    ∃ lt d, buildLiteral 97 = some lt ∧ dfaBuild lt [97, 98] 3 = some d ∧
      ∀ w, simulate d w = Result.accept ↔ w = [97] :=
  literal_dfa_accepts_exactly 97 [97, 98] (by decide) (by decide) (by decide)

/-! ## C1: termination of the subset construction -/

/-- The NFA of the pattern `a*`, i.e. `kleene_star(literal('a'))`. -/
def starA : Table :=
  [[0, -1, 0, -1], [0, 0, 97, 0], [0, -1, 0, -1], [0, 0, 0, 0]]

theorem starA_from_thompson :
    (buildLiteral 97).bind buildKleeneStar = some starA := by
  decide

theorem stepInputs_starA_a :
    stepInputs starA [97] [0, 1, 3] = some [(97, [1, 2, 3])] := by
  decide

theorem stepInputs_starA_b :
    stepInputs starA [97] [1, 2, 3] = some [(97, [1, 2, 3])] := by
  decide

/-- The worklist of `dfa::dfa` on `a*` never empties: both reachable
DFA-states step to `{1,2,3}`, which is pushed back unconditionally (the code
has no `if new` check before `to_process.push`). -/
theorem dfaLoop_starA_none (fuel : Nat) :
    ∀ ws tbl st, ws ≠ [] → (∀ k ∈ ws, k = [0, 1, 3] ∨ k = [1, 2, 3]) →
      dfaLoop starA [97] fuel ws tbl st = none := by
  induction fuel with
  | zero =>
    intro ws tbl st h1 h2
    rfl
  | succ n ih =>
    intro ws tbl st h1 h2
    match ws with
    | [] => exact absurd rfl h1
    | k :: rest =>
      have hstep : stepInputs starA [97] k = some [(97, [1, 2, 3])] := by
        rcases h2 k (by simp) with h | h
        · rw [h]
          exact stepInputs_starA_a
        · rw [h]
          exact stepInputs_starA_b
      have hred : dfaLoop starA [97] (n + 1) (k :: rest) tbl st =
          dfaLoop starA [97] n ([1, 2, 3] :: rest)
            (insertFold tbl st k [(97, [1, 2, 3])]).1
            (insertFold tbl st k [(97, [1, 2, 3])]).2 := by
        conv_lhs => unfold dfaLoop
        rw [hstep]
        rfl
      rw [hred]
      refine ih _ _ _ (by simp) ?_
      intro k2 hk2
      rcases List.mem_cons.1 hk2 with h | h
      · exact Or.inr h
      · exact h2 k2 (List.mem_cons_of_mem _ h)

/-- C1 (code evaluated at the failing input): on the 4-state NFA of `a*`
over the one-symbol alphabet `{'a'}`, the subset construction never
terminates — the loop body re-enqueues the already-recorded DFA-state
`{1,2,3}` forever, because successors are pushed without a newness check.
The claim's termination guarantee fails for every fuel bound. -/
theorem subset_construction_nonterminating :
    (buildLiteral 97).bind buildKleeneStar = some starA ∧
      ∀ fuel, dfaBuild starA [97] fuel = none := by
  refine ⟨starA_from_thompson, fun fuel => ?_⟩
  have hc : epsClosure starA [0] = some [0, 1, 3] := by decide
  unfold dfaBuild
  rw [hc]
  refine dfaLoop_starA_none fuel [[0, 1, 3]] [] none (by simp) ?_
  intro k hk
  rw [List.mem_singleton] at hk
  exact Or.inl hk

/-! ## C3: the start entry and acceptance of simulate -/

theorem tableFind_key (t : DTable) (k : Key) (e : Key × Trans)
    (h : tableFind t k = some e) : e.1 = k := by
  induction t with
  | nil => simp [tableFind] at h
  | cons e2 rest ih =>
    by_cases h2 : e2.1 = k
    · unfold tableFind at h
      rw [if_pos h2] at h
      injection h with h3
      rw [← h3]
      exact h2
    · unfold tableFind at h
      rw [if_neg h2] at h
      exact ih h

theorem tableFind_append_left (t t2 : DTable) (k : Key) (e : Key × Trans)
    (h : tableFind t k = some e) : tableFind (t ++ t2) k = some e := by
  induction t with
  | nil => simp [tableFind] at h
  | cons e2 rest ih =>
    rw [List.cons_append]
    simp only [tableFind] at h ⊢
    by_cases h2 : e2.1 = k
    · rw [if_pos h2] at h ⊢
      exact h
    · rw [if_neg h2] at h ⊢
      exact ih h

theorem tableFind_insert_isSome (t : DTable) (key : Key) (c : Int) (r : Key)
    (k : Key) (h : (tableFind t k).isSome = true) :
    (tableFind (tableInsert t key c r) k).isSome = true := by
  induction t with
  | nil => simp [tableFind] at h
  | cons e rest ih =>
    by_cases h2 : e.1 = key
    · unfold tableInsert
      rw [if_pos h2]
      by_cases h3 : e.1 = k
      · simp [tableFind, h3]
      · unfold tableFind at h ⊢
        rw [if_neg h3] at h
        simp only [if_neg h3]
        exact h
    · unfold tableInsert
      rw [if_neg h2]
      by_cases h3 : e.1 = k
      · simp [tableFind, h3]
      · unfold tableFind at h ⊢
        rw [if_neg h3] at h
        simp only [if_neg h3]
        exact ih h

theorem tableFind_insert_self_isSome (t : DTable) (key : Key) (c : Int)
    (r : Key) : (tableFind (tableInsert t key c r) key).isSome = true := by
  induction t with
  | nil => simp [tableInsert, tableFind]
  | cons e rest ih =>
    by_cases h2 : e.1 = key
    · unfold tableInsert
      rw [if_pos h2]
      simp [tableFind, h2]
    · unfold tableInsert
      rw [if_neg h2]
      unfold tableFind
      rw [if_neg h2]
      exact ih

theorem insertFold_snd_some (succs : List (Int × Key)) (tbl : DTable)
    (key : Key) (s : Key) :
    (insertFold tbl (some s) key succs).2 = some s := by
  induction succs generalizing tbl with
  | nil => rfl
  | cons cr more ih =>
    exact ih (tableInsert tbl key cr.1 cr.2)

theorem insertFold_fst_find (succs : List (Int × Key)) (tbl : DTable)
    (key : Key) (st : Option Key) (k : Key)
    (h : (tableFind tbl k).isSome = true) :
    (tableFind (insertFold tbl st key succs).1 k).isSome = true := by
  induction succs generalizing tbl st with
  | nil => exact h
  | cons cr more ih =>
    exact ih (tableInsert tbl key cr.1 cr.2) _
      (tableFind_insert_isSome tbl key cr.1 cr.2 k h)

/-- The loop invariant of `dfa::dfa` for the `start_` member: once set it is
the epsilon closure of the NFA start state (the first inserted key, hence
`begin()` of the then-singleton map), and it stays a key of the table. -/
theorem dfaLoop_start_inv (n : Table) (lang : List Int) (c0 : Key) :
    ∀ fuel ws tbl st d,
      (st = none → tbl = [] ∧ (ws = [c0] ∨ ws = [])) →
      (∀ s, st = some s → s = c0 ∧ (tableFind tbl s).isSome = true) →
      dfaLoop n lang fuel ws tbl st = some d →
      ∀ s, d.start = some s → s = c0 ∧ (tableFind d.table s).isSome = true := by
  intro fuel
  induction fuel with
  | zero =>
    intro ws tbl st d h1 h2 h3
    exact absurd h3 (by simp [dfaLoop])
  | succ m ih =>
    intro ws tbl st d h1 h2 h3
    match ws with
    | [] =>
      unfold dfaLoop at h3
      by_cases hf : (tableFind tbl [n.length - 1]).isSome = true
      · rw [if_pos hf] at h3
        exact absurd h3 (by simp)
      · rw [if_neg hf] at h3
        injection h3 with h3
        subst h3
        intro s hs
        have hs2 : st = some s := hs
        obtain ⟨hsc, hfind⟩ := h2 s hs2
        obtain ⟨e, he⟩ := Option.isSome_iff_exists.1 hfind
        refine ⟨hsc, ?_⟩
        show (tableFind (tbl ++ [([n.length - 1], [])]) s).isSome = true
        rw [tableFind_append_left tbl _ s e he]
        rfl
    | key :: rest =>
      unfold dfaLoop at h3
      cases hsi : stepInputs n lang key with
      | none =>
        rw [hsi] at h3
        exact absurd h3 (by simp)
      | some succs =>
        rw [hsi] at h3
        cases hst : st with
        | some s0 =>
          rw [hst] at h2 h3
          obtain ⟨hs0, hfind0⟩ := h2 s0 rfl
          have h3b : dfaLoop n lang m ((succs.map Prod.snd).reverse ++ rest)
              (insertFold tbl (some s0) key succs).1
              (insertFold tbl (some s0) key succs).2 = some d := h3
          have hsnd : (insertFold tbl (some s0) key succs).2 = some s0 :=
            insertFold_snd_some succs tbl key s0
          rw [hsnd] at h3b
          refine ih _ _ _ d (by simp) ?_ h3b
          intro s hs
          injection hs with hs
          rw [← hs]
          exact ⟨hs0, insertFold_fst_find succs tbl key (some s0) s0 hfind0⟩
        | none =>
          rw [hst] at h1 h3
          obtain ⟨htbl, hws⟩ := h1 rfl
          subst htbl
          rcases hws with hws | hws
          · have hkey : key = c0 := (List.cons_eq_cons.1 hws).1
            have hrest : rest = [] := (List.cons_eq_cons.1 hws).2
            cases succs with
            | nil =>
              have h3b : dfaLoop n lang m rest [] none = some d := h3
              refine ih _ _ _ d ?_ (by intro s hs; simp at hs) h3b
              intro _
              rw [hrest]
              exact ⟨rfl, Or.inr rfl⟩
            | cons cr more =>
              have h3b : dfaLoop n lang m
                  (((cr :: more).map Prod.snd).reverse ++ rest)
                  (insertFold [(key, [(cr.1, cr.2)])] (some key) key more).1
                  (insertFold [(key, [(cr.1, cr.2)])] (some key) key more).2 =
                    some d := h3
              have hsnd : (insertFold [(key, [(cr.1, cr.2)])] (some key) key
                  more).2 = some key :=
                insertFold_snd_some more [(key, [(cr.1, cr.2)])] key key
              rw [hsnd] at h3b
              refine ih _ _ _ d (by simp) ?_ h3b
              intro s hs
              injection hs with hs
              rw [← hs]
              refine ⟨hkey, ?_⟩
              exact insertFold_fst_find more [(key, [(cr.1, cr.2)])]
                key (some key) key (by simp [tableFind])
          · exact absurd hws (by simp)

/-- C3 (amended): whenever the constructor completes, the start entry, if
set, is exactly the epsilon closure of the NFA start state and remains a key
of the final table; if it was never set (no transition was ever recorded),
`simulate` rejects every input, the empty one included; and whenever the
walk's every lookup lands on a recorded entry, `simulate` accepts iff the
entry reached after the whole input contains the accepting NFA index. -/
theorem dfa_start_entry_spec (n : Table) (lang : List Int) (fuel : Nat)
    (d : DFA) (h : dfaBuild n lang fuel = some d) :
    (d.start = none → ∀ w, simulate d w = Result.reject) ∧
    (∀ s, d.start = some s →
        epsClosure n [0] = some s ∧
        (simulate d [] = Result.accept ↔ d.final ∈ s)) ∧
    (∀ w e, simWalk d w = some e →
        (simulate d w = Result.accept ↔ d.final ∈ e.1)) := by
  refine ⟨?_, ?_, ?_⟩
  · intro hnone w
    unfold simulate
    rw [hnone]
    cases w with
    | nil => rfl
    | cons c rest => rfl
  · intro s hs
    unfold dfaBuild at h
    cases hc : epsClosure n [0] with
    | none =>
      rw [hc] at h
      exact absurd h (by simp)
    | some c0 =>
      rw [hc] at h
      obtain ⟨hsc, hfind⟩ := dfaLoop_start_inv n lang c0 fuel [c0] [] none d
        (fun _ => ⟨rfl, Or.inl rfl⟩) (fun s0 hs0 => by simp at hs0) h s hs
      obtain ⟨e, he⟩ := Option.isSome_iff_exists.1 hfind
      refine ⟨by rw [hsc], ?_⟩
      have hek : e.1 = s := tableFind_key _ _ _ he
      unfold simulate
      rw [hs]
      show (simRun d.table d.final (tableFind d.table s) []) = _ ↔ _
      rw [he]
      unfold simRun
      rw [hek]
      by_cases hf : d.final ∈ s
      · simp [hf]
      · simp [hf]
  · intro w e hw
    unfold simulate
    rw [simRun_eq_walkFrom]
    unfold simWalk at hw
    rw [hw]
    by_cases hf : d.final ∈ e.1
    · simp [hf]
    · simp [hf]

/-- Witness for C3 at the DFA of `literal('a')` over `{'a'}`: the start
entry is the closure `{0}` of the NFA start state, and the empty input is
accepted iff that closure contains the accepting index 1 (it does not). -/
theorem dfa_start_entry_witness :
    epsClosure [[(0 : Int), 97], [0, 0]] [0] = some [0] ∧
      (simulate ⟨[([0], [(97, [1])]), ([1], [])], some [0], 1⟩ [] =
          Result.accept ↔
        (1 : Nat) ∈ [0]) :=
  (dfa_start_entry_spec [[(0 : Int), 97], [0, 0]] [97] 3
      ⟨[([0], [(97, [1])]), ([1], [])], some [0], 1⟩ (by rfl)).2.1 [0] rfl

/-- Counterexample for C3 as stated, in two parts.  (1) On the one-state NFA
with no edges, the constructor terminates, the epsilon closure of the start
state is `{0}` and contains the accepting index 0, yet the start iterator was
never set and `simulate` rejects the empty input.  (2) On the NFA of `a|b`
over `{'a','b'}`, consuming `"a"` moves the walk to the state set `{2,5}`,
which contains the accepting index 5, yet `{2,5}` was never recorded as a
key, so `simulate` rejects `"a"`. -/
theorem dfa_simulate_cex :
    dfaBuild [[(0 : Int)]] [97] 2 = some ⟨[([0], [])], none, 0⟩ ∧
      epsClosure [[(0 : Int)]] [0] = some [0] ∧ (0 : Nat) ∈ [0] ∧
      simulate ⟨[([0], [])], none, 0⟩ [] = Result.reject ∧
      ((buildLiteral 97).bind fun a =>
          (buildLiteral 98).bind fun b => buildAlternation a b) =
        some [[0, -1, 0, -1, 0, 0], [0, 0, 97, 0, 0, 0], [0, 0, 0, 0, 0, -1],
          [0, 0, 0, 0, 98, 0], [0, 0, 0, 0, 0, -1], [0, 0, 0, 0, 0, 0]] ∧
      dfaBuild [[0, -1, 0, -1, 0, 0], [0, 0, 97, 0, 0, 0],
          [0, 0, 0, 0, 0, -1], [0, 0, 0, 0, 98, 0], [0, 0, 0, 0, 0, -1],
          [0, 0, 0, 0, 0, 0]] [97, 98] 4 =
        some ⟨[([0, 1, 3], [(97, [2, 5]), (98, [4, 5])]), ([5], [])],
          some [0, 1, 3], 5⟩ ∧
      lookupA [(97, [2, 5]), (98, [4, 5])] 97 = some [2, 5] ∧
      (5 : Nat) ∈ [2, 5] ∧
      simulate ⟨[([0, 1, 3], [(97, [2, 5]), (98, [4, 5])]), ([5], [])],
          some [0, 1, 3], 5⟩ [97] = Result.reject := by
  decide

/-! ## C4: chain -/

theorem getD_zeroRow (n j : Nat) : (zeroRow n).getD j 0 = 0 := by
  unfold zeroRow
  by_cases h : j < n
  · rw [List.getD_eq_getElem _ _ (by simpa using h)]
    simp
  · exact List.getD_eq_default _ _ (by simpa using Nat.le_of_not_lt h)

theorem getD_replicate_row (r : List Int) (n i : Nat) (h : i < n) :
    (List.replicate n r).getD i [] = r := by
  rw [List.getD_eq_getElem _ _ (by simpa using h)]
  simp

/-- Cell-level description of `append_empty_states`: old cells survive inside
the old square, every padded cell is edge-free. -/
theorem appendEmptyStates_spec (a : Table) (n : Nat) (hn : 1 ≤ n)
    (hwf : ∀ row ∈ a, row.length = a.length) :
    ∃ T, appendEmptyStates a n = some T ∧ T.length = a.length + n ∧
      (∀ i, i < a.length + n → (T.getD i []).length = a.length + n) ∧
      ∀ i j, cell T i j =
        if i < a.length ∧ j < a.length then cell a i j else 0 := by
  have hrow : ∀ i, i < a.length → (a.getD i []).length = a.length := by
    intro i hi
    apply hwf
    rw [List.getD_eq_getElem _ _ hi]
    exact List.getElem_mem hi
  have hgetlo : ∀ i, i < a.length →
      ((a.map (fun row => row ++ zeroRow n))
        ++ List.replicate n (zeroRow (a.length + n))).getD i [] =
        (a.getD i []) ++ zeroRow n := by
    intro i h1
    rw [List.getD_append _ _ _ _ (by simpa using h1)]
    rw [List.getD_eq_getElem _ _ (by simpa using h1)]
    rw [List.getElem_map]
    rw [List.getD_eq_getElem _ _ h1]
  have hgethi : ∀ i, a.length ≤ i → i < a.length + n →
      ((a.map (fun row => row ++ zeroRow n))
        ++ List.replicate n (zeroRow (a.length + n))).getD i [] =
        zeroRow (a.length + n) := by
    intro i h1 h2
    rw [List.getD_append_right _ _ _ _ (by simpa using h1)]
    have hidx : i - (a.map (fun row => row ++ zeroRow n)).length < n := by
      rw [List.length_map]
      omega
    exact getD_replicate_row _ _ _ hidx
  refine ⟨(a.map (fun row => row ++ zeroRow n))
      ++ List.replicate n (zeroRow (a.length + n)), ?_, ?_, ?_, ?_⟩
  · unfold appendEmptyStates
    rw [if_neg (by omega)]
  · simp
  · intro i hi
    by_cases h1 : i < a.length
    · rw [hgetlo i h1]
      rw [List.length_append, hrow i h1]
      simp [zeroRow]
    · rw [hgethi i (Nat.le_of_not_lt h1) hi]
      simp [zeroRow]
  · intro i j
    unfold cell
    by_cases h1 : i < a.length
    · rw [hgetlo i h1]
      by_cases h2 : j < a.length
      · rw [List.getD_append _ _ _ _ (by rw [hrow i h1]; exact h2)]
        rw [if_pos ⟨h1, h2⟩]
      · rw [List.getD_append_right _ _ _ _
          (by rw [hrow i h1]; exact Nat.le_of_not_lt h2)]
        rw [getD_zeroRow, if_neg (by tauto)]
    · rw [if_neg (by tauto)]
      by_cases h3 : i < a.length + n
      · rw [hgethi i (Nat.le_of_not_lt h1) h3, getD_zeroRow]
      · rw [List.getD_eq_default _ []
          (show ((a.map (fun row => row ++ zeroRow n))
            ++ List.replicate n (zeroRow (a.length + n))).length ≤ i from by
              simp
              omega)]
        rfl

/-- Cell-level description of the `std::copy` overwrite (note `++` is
left-associated, so the spliced row is `(take ++ src) ++ drop`). -/
theorem getD_overwriteAt (row src : List Int) (off j : Nat)
    (hoff : off + src.length ≤ row.length) :
    (overwriteAt row off src).getD j 0 =
      if j < off then row.getD j 0
      else if j < off + src.length then src.getD (j - off) 0
      else row.getD j 0 := by
  unfold overwriteAt
  have hofflen : off ≤ row.length := le_trans (Nat.le_add_right _ _) hoff
  have htake : (row.take off).length = off := by
    simp [Nat.min_eq_left hofflen]
  have hts : (row.take off ++ src).length = off + src.length := by
    simp [htake]
  by_cases h1 : j < off
  · rw [List.getD_append _ _ _ _ (by rw [hts]; omega)]
    rw [List.getD_append _ _ _ _ (by rw [htake]; exact h1)]
    rw [if_pos h1]
    rw [List.getD_eq_getElem _ _ (by rw [htake]; exact h1)]
    rw [List.getD_eq_getElem _ _ (lt_of_lt_of_le h1 hofflen)]
    exact List.getElem_take row
  · rw [if_neg h1]
    by_cases h2 : j < off + src.length
    · rw [List.getD_append _ _ _ _ (by rw [hts]; exact h2)]
      rw [List.getD_append_right _ _ _ _ (by rw [htake]; omega)]
      rw [htake, if_pos h2]
    · rw [List.getD_append_right _ _ _ _ (by rw [hts]; omega)]
      rw [hts, if_neg h2]
      by_cases h3 : j < row.length
      · rw [List.getD_eq_getElem _ _ (by simp; omega)]
        rw [List.getD_eq_getElem _ _ h3]
        rw [List.getElem_drop row]
        congr 1
        omega
      · rw [List.getD_eq_default _ _ (by simp; omega)]
        rw [List.getD_eq_default _ _ (by omega)]

/-- C4 (amended): for distinct well-formed automata with `b.size ≥ 2`,
`chain(a, b)` has size `a.size + b.size - 1`; rows below the merged state
keep `a`'s cells (including edges into `a`'s final state); the merged row
(index `a.size - 1`) keeps `a`'s final state's outgoing edges in columns
below `a.size - 1` and carries `b`'s start state's outgoing edges at the
shifted columns; higher rows are `b`'s remaining rows at their shifted
positions. -/
theorem chainOp_spec (a b : Table) (ha : WfTable a) (hb : WfTable b)
    (hb2 : 2 ≤ b.length) :
    ∃ c, chainOp a b false = some c ∧
      c.length = a.length + b.length - 1 ∧
      ∀ i j, cell c i j =
        if i < a.length - 1 then
          (if j < a.length then cell a i j else 0)
        else if i < a.length + b.length - 1 then
          (if j < a.length - 1 then
            (if i = a.length - 1 then cell a i j else 0)
          else cell b (i - (a.length - 1)) (j - (a.length - 1)))
        else 0 := by
  obtain ⟨ha1, hawf⟩ := ha
  obtain ⟨hb1, hbwf⟩ := hb
  have hbrow : ∀ k, k < b.length → (b.getD k []).length = b.length := by
    intro k hk
    apply hbwf
    rw [List.getD_eq_getElem _ _ hk]
    exact List.getElem_mem hk
  obtain ⟨T, hT, hTlen, hTrows, hTcell⟩ :=
    appendEmptyStates_spec a (b.length - 1) (by omega) hawf
  refine ⟨(List.range T.length).map (fun i =>
      if a.length - 1 ≤ i then
        overwriteAt (T.getD i []) (a.length - 1)
          (b.getD (i - (a.length - 1)) [])
      else T.getD i []), ?_, ?_, ?_⟩
  · unfold chainOp
    rw [if_neg (by simp)]
    rw [hT]
    rfl
  · rw [List.length_map, List.length_range, hTlen]
    omega
  · intro i j
    unfold cell
    by_cases hi : i < T.length
    · have hrownew : ((List.range T.length).map (fun i =>
          if a.length - 1 ≤ i then
            overwriteAt (T.getD i []) (a.length - 1)
              (b.getD (i - (a.length - 1)) [])
          else T.getD i [])).getD i [] =
          (if a.length - 1 ≤ i then
            overwriteAt (T.getD i []) (a.length - 1)
              (b.getD (i - (a.length - 1)) [])
          else T.getD i []) := by
        rw [List.getD_eq_getElem _ _ (by simpa using hi)]
        rw [List.getElem_map]
        rw [List.getElem_range]
      rw [hrownew]
      rw [hTlen] at hi
      by_cases hzone : a.length - 1 ≤ i
      · rw [if_pos hzone]
        have hk : i - (a.length - 1) < b.length := by omega
        have hsrc : (b.getD (i - (a.length - 1)) []).length = b.length :=
          hbrow _ hk
        have hrowlen : (T.getD i []).length = a.length + (b.length - 1) :=
          hTrows i hi
        rw [getD_overwriteAt _ _ _ _ (by rw [hsrc, hrowlen]; omega)]
        rw [if_neg (show ¬(i < a.length - 1) from by omega)]
        rw [if_pos (show i < a.length + b.length - 1 from by omega)]
        by_cases hj : j < a.length - 1
        · rw [if_pos hj, if_pos hj]
          rw [show (T.getD i []).getD j 0 = cell T i j from rfl, hTcell]
          by_cases hieq : i = a.length - 1
          · rw [if_pos hieq, if_pos ⟨by omega, by omega⟩]
            rfl
          · rw [if_neg hieq, if_neg (by
              rintro ⟨hlt, _⟩
              omega)]
        · rw [if_neg hj, if_neg hj]
          by_cases hj2 : j < a.length - 1 + b.length
          · rw [if_pos (show j < a.length - 1 +
              (List.getD b (i - (a.length - 1)) []).length from by
                rw [hsrc]
                omega)]
          · rw [if_neg (show ¬(j < a.length - 1 +
              (List.getD b (i - (a.length - 1)) []).length) from by
                rw [hsrc]
                omega)]
            rw [show (T.getD i []).getD j 0 = cell T i j from rfl, hTcell]
            rw [if_neg (by rintro ⟨_, hlt⟩; omega)]
            rw [List.getD_eq_default _ _
              (show (List.getD b (i - (a.length - 1)) []).length ≤
                j - (a.length - 1) from by
                  rw [hsrc]
                  omega)]
      · rw [if_neg hzone]
        rw [show (T.getD i []).getD j 0 = cell T i j from rfl, hTcell]
        rw [if_pos (show i < a.length - 1 from by omega)]
        by_cases hj : j < a.length
        · rw [if_pos ⟨by omega, hj⟩, if_pos hj]
          rfl
        · rw [if_neg (by rintro ⟨_, hlt⟩; omega), if_neg hj]
    · rw [List.getD_eq_default _ []
        (show ((List.range T.length).map (fun i =>
            if a.length - 1 ≤ i then
              overwriteAt (T.getD i []) (a.length - 1)
                (b.getD (i - (a.length - 1)) [])
            else T.getD i [])).length ≤ i from by
          rw [List.length_map, List.length_range]
          exact Nat.le_of_not_lt hi)]
      rw [hTlen] at hi
      rw [if_neg (by omega), if_neg (by omega)]
      rfl

/-- Witness for C4 at `a = nfa2`, `b = nfa1` of the `chain` test in
`src/test/main.cpp`. -/
theorem chainOp_witness :
    ∃ c, chainOp [[0, 3, 0], [4, 0, 0], [0, 5, 0]] [[0, 1], [2, 0]] false =
        some c ∧
      c.length = [[(0 : Int), 3, 0], [4, 0, 0], [0, 5, 0]].length +
        [[(0 : Int), 1], [2, 0]].length - 1 ∧
      ∀ i j, cell c i j =
        if i < [[(0 : Int), 3, 0], [4, 0, 0], [0, 5, 0]].length - 1 then
          (if j < [[(0 : Int), 3, 0], [4, 0, 0], [0, 5, 0]].length then
            cell [[0, 3, 0], [4, 0, 0], [0, 5, 0]] i j
           else 0)
        else if i < [[(0 : Int), 3, 0], [4, 0, 0], [0, 5, 0]].length +
            [[(0 : Int), 1], [2, 0]].length - 1 then
          (if j < [[(0 : Int), 3, 0], [4, 0, 0], [0, 5, 0]].length - 1 then
            (if i = [[(0 : Int), 3, 0], [4, 0, 0], [0, 5, 0]].length - 1 then
              cell [[0, 3, 0], [4, 0, 0], [0, 5, 0]] i j
             else 0)
          else cell [[0, 1], [2, 0]]
            (i - ([[(0 : Int), 3, 0], [4, 0, 0], [0, 5, 0]].length - 1))
            (j - ([[(0 : Int), 3, 0], [4, 0, 0], [0, 5, 0]].length - 1)))
        else 0 :=
  chainOp_spec [[0, 3, 0], [4, 0, 0], [0, 5, 0]] [[0, 1], [2, 0]]
    ⟨by decide, by decide⟩ ⟨by decide, by decide⟩ (by decide)

/-- Counterexample for C4 as stated, in two parts.  (1) Take `a` with an
outgoing edge `T[2][0] = 5` from its final state and a 2-state `b`: the
claim says the merged state (index 2) carries exactly `b`'s start state's
outgoing edges at their shifted positions — in particular column 0 of row 2
should be empty — but the code only overwrites columns `≥ a.size - 1`, so
the edge labeled 5 survives in the merged row.  (2) With a one-state `b`,
`chain` calls `append_empty_states(0)`, which throws `InvalidSize` instead
of yielding an automaton of size `a.size + 1 - 1`. -/
theorem chain_keeps_final_edges_cex :
    (¬ ∀ c, chainOp [[0, 7, 0], [0, 0, 0], [5, 0, 0]] [[0, 9], [0, 0]] false =
        some c →
      ∀ j, cell c 2 j =
        if 2 ≤ j then cell [[0, 9], [0, 0]] 0 (j - 2) else 0) ∧
      chainOp [[0, 7, 0], [0, 0, 0], [5, 0, 0]] [[(0 : Int)]] false = none := by
  constructor
  · intro h
    have h2 := h [[0, 7, 0, 0], [0, 0, 0, 0], [5, 0, 0, 9], [0, 0, 0, 0]]
      (by decide) 0
    simp [cell] at h2
  · decide

/-! ## C10: self-application guards -/

/-- C10: for every automaton `A`, the self-applications `A.chain(A)`,
`A.append(A)` and `A.prepend(A)` hit the `this == &other` guard and return
with `A` completely unchanged, while composing with a genuinely distinct
(even value-equal) automaton does change the table. -/
theorem self_application_noop (a : Table) :
    chainOp a a true = some a ∧ appendOp a a true = some a ∧
      prependOp a a true = some a ∧
      chainOp [[0, 97], [0, 0]] [[0, 97], [0, 0]] false ≠
        some [[0, 97], [0, 0]] := by
  exact ⟨rfl, rfl, rfl, by decide⟩

/-! ## C6: unbalanced parentheses -/

/-- C6 (code evaluated at the failing inputs): a `)` with no matching marker
runs `op_stack_.pop()` on an empty stack (undefined behaviour, no typed
failure), and a `(` still on the stack at end of input trips
`assert(op == op::alternation)`; no `UnbalancedParens` failure exists. -/
theorem unbalanced_parens_behaviour :
    parse [')'] = Except.error PErr.popEmptyUB ∧
      parse ['(', 'a'] = Except.error PErr.assertFail := by
  exact ⟨rfl, rfl⟩

/-! ## C7: leftover fragments -/

/-- C7 (code evaluated at the failing input): a scan leaving two fragments,
such as the pattern `(a)(b)`, ends in `assert(output_.size() == 1)` — an
assertion failure (and, with `NDEBUG`, a partial result), not a typed
`MalformedPattern` failure. -/
theorem leftover_fragments_assert :
    parse ['(', 'a', ')', '(', 'b', ')'] = Except.error PErr.assertFail := by
  exact rfl

/-! ## C8: simulation is total and rejects unknown symbols -/

/-- C8: `simulate` always answers exactly accept or reject, and whenever the
walk sits at a live entry whose transition map has no entry for the next
input symbol (in particular for symbols outside the declared alphabet), the
whole input is rejected — no failure is raised. -/
theorem simulate_total_and_unknown_symbol_rejects (d : DFA) :
    (∀ w, simulate d w = Result.accept ∨ simulate d w = Result.reject) ∧
    (∀ pre c suf e, simWalk d pre = some e → lookupA e.2 c = none →
        simulate d (pre ++ c :: suf) = Result.reject) := by
  constructor
  · intro w
    cases h : simulate d w with
    | accept => exact Or.inl rfl
    | reject => exact Or.inr rfl
  · intro pre c suf e h1 h2
    unfold simWalk at h1
    unfold simulate
    rw [simRun_eq_walkFrom, walkFrom_append, h1, walkFrom_cons]
    simp [h2, walkFrom_none]

/-- Witness for C8 at the DFA of `literal('a')` over alphabet `{'a'}`: the
symbol `'b'` has no transition from the start entry and the input `"b"` is
rejected. -/
theorem simulate_unknown_symbol_witness :
    simulate ⟨[([0], [(97, [1])]), ([1], [])], some [0], 1⟩ [98] =
      Result.reject :=
  (simulate_total_and_unknown_symbol_rejects
      ⟨[([0], [(97, [1])]), ([1], [])], some [0], 1⟩).2
    [] 98 [] ([0], [(97, [1])]) rfl rfl

/-! ## C9: postfix fold across a pending alternation -/

/-- C9 (amended): whenever the scan of a pattern ends with an alternation
marker on top of the operator stack while fewer than two fragments remain on
the output stack — the state produced when a postfix operator's
`concatenate_output` folded the whole output across a pending alternation's
operand boundary and no later fragment rescued it — `parse` fails with the
`MissingOperand` error (`"| operator must have two arguments"`). -/
theorem pending_alternation_missingOperand (regex : List Char) (rest : List Op)
    (out : List Table) (nst : Int) (sp : Bool)
    (h : scan regex = Except.ok ⟨Op.alternation :: rest, out, nst, sp⟩)
    (h3 : out.length < 2) :
    parse regex = Except.error PErr.missingOperand := by
  have haltst : altStack out = Except.error PErr.missingOperand := by
    match out, h3 with
    | [], _ => rfl
    | [x], _ => rfl
    | x :: y :: r, h3 => exact absurd h3 (by simp)
  unfold parse
  rw [h]
  simp only [finishOps, haltst, reduceIte]

/-- Witness for C9 at the pattern `a|b*`: the scan ends with a pending
alternation marker and the single folded fragment `concat(a, b*)`, so parsing
fails with `MissingOperand`. -/
theorem pending_alternation_witness :
    parse ['a', '|', 'b', '*'] = Except.error PErr.missingOperand :=
  pending_alternation_missingOperand ['a', '|', 'b', '*'] []
    [[[0, 97, 0, 0, 0], [0, 0, -1, 0, -1], [0, 0, 0, 98, 0],
      [0, 0, -1, 0, -1], [0, 0, 0, 0, 0]]] 0 false (by rfl) (by decide)

/-- Counterexample for C9 as stated: in `a|b*(c|d)` the postfix `*` is
applied while the alternation marker from `a|` is pending with exactly one
fragment accumulated since it (the fold merges `a` into `concat(a, b*)`),
yet `parse` succeeds — the parenthesised group later pushes a second
fragment, so the pending alternation finds two operands (with the wrong
grouping) instead of failing with `MissingOperand`. -/
theorem concat_across_alternation_cex :
    parse ['a', '|', 'b', '*', '(', 'c', '|', 'd', ')'] =
      Except.ok
        [[0, -1, 0, 0, 0, 0, -1, 0, 0, 0, 0, 0, 0],
         [0, 0, 97, 0, 0, 0, 0, 0, 0, 0, 0, 0, 0],
         [0, 0, 0, -1, 0, -1, 0, 0, 0, 0, 0, 0, 0],
         [0, 0, 0, 0, 98, 0, 0, 0, 0, 0, 0, 0, 0],
         [0, 0, 0, -1, 0, -1, 0, 0, 0, 0, 0, 0, 0],
         [0, 0, 0, 0, 0, 0, 0, 0, 0, 0, 0, 0, -1],
         [0, 0, 0, 0, 0, 0, 0, -1, 0, -1, 0, 0, 0],
         [0, 0, 0, 0, 0, 0, 0, 0, 99, 0, 0, 0, 0],
         [0, 0, 0, 0, 0, 0, 0, 0, 0, 0, 0, -1, 0],
         [0, 0, 0, 0, 0, 0, 0, 0, 0, 0, 100, 0, 0],
         [0, 0, 0, 0, 0, 0, 0, 0, 0, 0, 0, -1, 0],
         [0, 0, 0, 0, 0, 0, 0, 0, 0, 0, 0, 0, -1],
         [0, 0, 0, 0, 0, 0, 0, 0, 0, 0, 0, 0, 0]] := by
  rfl

end Degen
